import Mathlib

set_option autoImplicit false

/-!
Verification of the BiliTools storage layer (src-tauri/src/storage):
a shallow embedding of the connection manager, meta/migration engine,
config store, cookie jar and task archive, with theorems settling the
specified properties against the embedded code.
-/

namespace BiliTools

/-! ## Association lists

The Rust code keeps keyed rows (SQLite tables with a TEXT primary key,
`serde_json::Map`, hash maps).  We model every keyed collection as an
association list with first-match lookup and replace-first-else-append
insertion, matching upsert / map-insert semantics. -/

/-- First-match lookup in an association list (model of keyed row lookup). -/
def lookupA {α : Type} : List (String × α) → String → Option α
  | [], _ => none
  | (k, v) :: rest, key => if k = key then some v else lookupA rest key

/-- Insert-or-replace keyed by string (model of map insert / SQL upsert). -/
def insertA {α : Type} : List (String × α) → String → α → List (String × α)
  | [], key, v => [(key, v)]
  | (k, w) :: rest, key, v =>
    if k = key then (key, v) :: rest else (k, w) :: insertA rest key v

/-! ## Meta / migration engine (`storage/db.rs`)

`TableSpec::check_latest` reads the stored version from the `meta` table
(absent row means 0), and on a mismatch runs — inside one transaction —
rename-to-archival (failure ignored via `.ok()`), create-current-shape,
the `migrate_data` hook, commit, and then (outside the transaction)
`set_version`.  We embed the database state (meta rows plus the set of
physical tables), record the executed statements as an event trace, and
inject faults into the fallible steps to model error propagation:
a failed step makes the `?` operator drop the transaction, which rolls
every buffered change back. -/

/-- Events emitted by one `check_latest` pass, in execution order. -/
inductive MigEvent where
  | beginTx
  | renameTable (oldName newName : String)
  | createTable (tname : String)
  | migrateHook (oldTable : String)
  | commitTx
  | recordVersion (tname : String) (v : Int)
deriving DecidableEq

/-- Embedded database state: `meta` rows (name ↦ version) and the physical tables. -/
structure DbState where
  meta : List (String × Int)
  tables : List String
deriving DecidableEq

/-- Errors of the non-tolerated migration steps. -/
inductive MigError where
  | createFailed
  | hookFailed
  | commitFailed
deriving DecidableEq

/-- Fault injection for the three fallible, non-tolerated steps of an upgrade. -/
structure FaultPlan where
  createFails : Bool
  hookFails : Bool
  commitFails : Bool
deriving DecidableEq

/-- `get_version`: `SELECT version FROM meta WHERE name = ?`; an absent row yields 0. -/
def get_version (meta : List (String × Int)) (name : String) : Int :=
  (lookupA meta name).getD 0

/-- `set_version`: upsert `(name, version)` into `meta` (ON CONFLICT update). -/
def set_version (meta : List (String × Int)) (name : String) (v : Int) :
    List (String × Int) :=
  insertA meta name v

instance {ε α : Type} [DecidableEq ε] [DecidableEq α] : DecidableEq (Except ε α) :=
  fun a b =>
  match a, b with
  | .ok u, .ok v =>
    if h : u = v then isTrue (by rw [h]) else isFalse (fun hc => h (by cases hc; rfl))
  | .error e, .error f =>
    if h : e = f then isTrue (by rw [h]) else isFalse (fun hc => h (by cases hc; rfl))
  | .ok _, .error _ => isFalse (fun hc => Except.noConfusion hc)
  | .error _, .ok _ => isFalse (fun hc => Except.noConfusion hc)

/-- Result of one `check_latest` pass: trace, outcome, and post-state. -/
structure MigResult where
  events : List MigEvent
  outcome : Except MigError Unit
  state : DbState
deriving DecidableEq

/-- `TableSpec::check_latest` for a table `name` with target version `latest`,
timestamp suffix `ts`.  Mirrors src/src-tauri/src/storage/db.rs lines 38–65:
if the stored version differs from the target, begin a transaction, attempt
the rename (result discarded with `.ok()`), execute the create statement
(`if_not_exists`), run the migration hook, commit, and only then record the
version.  A failure of create / hook / commit aborts with the transaction
dropped, so the committed state is unchanged. -/
def check_latest (name : String) (latest : Int) (ts : String) (f : FaultPlan)
    (st : DbState) : MigResult :=
  let cur := get_version st.meta name
  if cur = latest then ⟨[], .ok (), st⟩
  else
    let old := name ++ "_" ++ ts
    -- transaction buffer starts from the committed tables
    let t1 := if st.tables.contains name then old :: st.tables.erase name else st.tables
    let ev1 := [MigEvent.beginTx, MigEvent.renameTable name old]
    if f.createFails then ⟨ev1 ++ [MigEvent.createTable name], .error .createFailed, st⟩
    else
      let t2 := if t1.contains name then t1 else name :: t1
      let ev2 := ev1 ++ [MigEvent.createTable name]
      if f.hookFails then ⟨ev2 ++ [MigEvent.migrateHook old], .error .hookFailed, st⟩
      else
        let ev3 := ev2 ++ [MigEvent.migrateHook old]
        if f.commitFails then ⟨ev3 ++ [MigEvent.commitTx], .error .commitFailed, st⟩
        else
          ⟨ev3 ++ [MigEvent.commitTx, MigEvent.recordVersion name latest], .ok (),
            ⟨set_version st.meta name latest, t2⟩⟩

/-! ## Connection manager (`storage/db.rs`)

The pool handle lives in `static DB: OnceLock<SqlitePool>`.  `init_db`
builds the pool and then calls `DB.set`, which fails with
"Database already initialized" when the lock already holds a value;
`close_db` closes the pool but cannot clear the `OnceLock`.  `import`
performs backup → close → remove main, wal and shm files → copy-in → `init_db`.
We track whether the `OnceLock` holds a value and record the filesystem
and pool operations as events. -/

/-- Filesystem / pool operations performed by the connection manager. -/
inductive ImpEvent where
  | backupCopy
  | closePool
  | removeMain
  | removeWal
  | removeShm
  | copyIn
  | openPool
  | setHandle
deriving DecidableEq

/-- Connection-manager state: whether the `OnceLock` already holds a pool. -/
structure ConnState where
  dbSet : Bool
deriving DecidableEq

inductive DbError where
  | alreadyInitialized
deriving DecidableEq

/-- `init_db`: connect the pool, then `DB.set(pool)`, which errors if the
`OnceLock` was ever set in this process. -/
def init_db (st : ConnState) : List ImpEvent × Except DbError ConnState :=
  if st.dbSet then ([ImpEvent.openPool], .error .alreadyInitialized)
  else ([ImpEvent.openPool, ImpEvent.setHandle], .ok ⟨true⟩)

/-- `close_db`: close the pool when one is present; the `OnceLock` keeps its value. -/
def close_db (st : ConnState) : List ImpEvent × ConnState :=
  if st.dbSet then ([ImpEvent.closePool], st) else ([], st)

/-- `import`: backup (only when the main file exists), close, remove the
primary file and the `-wal` / `-shm` side files, copy the source file in,
then `init_db` again (db.rs lines 151–171). -/
def importDb (mainExists : Bool) (st : ConnState) :
    List ImpEvent × Except DbError ConnState :=
  let ev0 := if mainExists then [ImpEvent.backupCopy] else []
  let c := close_db st
  let evRm := [ImpEvent.removeMain, ImpEvent.removeWal, ImpEvent.removeShm, ImpEvent.copyIn]
  let r := init_db c.2
  (ev0 ++ c.1 ++ evRm ++ r.1, r.2)

/-! ## Config store (`storage/config.rs`)

Settings are persisted one row per top-level field, the value being
JSON-encoded text.  We embed JSON values as `Value` (an atom or an
object) and every JSON map as an association list.  `load()` reads the
stored rows, serializes the compiled-in default `Settings`, and merges:
a default field absent from the stored map is inserted; when both the
default and the stored field are objects, the nested keys missing from
the stored object are copied in (one level); everything else is left
alone.  `write()` filters the incoming pairs against the known top-level
field names, persists and folds in each survivor, and publishes the new
snapshot once at the end. -/

/-- JSON value: an atom (string/number/bool/null, opaque here) or an object. -/
inductive Value where
  | atom (s : String)
  | obj (fields : List (String × Value))

/-- The inner loop of `load()`: copy into the stored object every nested key
of the default object that it does not already contain (config.rs 135–139). -/
def mergeMissing : List (String × Value) → List (String × Value) → List (String × Value)
  | lobj, [] => lobj
  | lobj, (k, v) :: rest =>
    mergeMissing (if (lookupA lobj k).isSome then lobj else insertA lobj k v) rest

/-- One step of the `load()` merge loop for a default field `(k, dv)`
(config.rs 125–144): vacant entry → insert the default; occupied entry with
both sides objects → merge missing nested keys; otherwise leave it alone. -/
def mergeEntry (loc : List (String × Value)) (k : String) (dv : Value) :
    List (String × Value) :=
  match lookupA loc k with
  | none => insertA loc k dv
  | some lv =>
    match dv, lv with
    | Value.obj dobj, Value.obj lobj => insertA loc k (Value.obj (mergeMissing lobj dobj))
    | _, _ => loc

/-- The `load()` merge: fold every default field into the stored map. -/
def loadMerge : List (String × Value) → List (String × Value) → List (String × Value)
  | loc, [] => loc
  | loc, (k, dv) :: rest => loadMerge (mergeEntry loc k dv) rest

/-- Left-biased choice on options (the first hit wins). -/
def orO {α : Type} : Option α → Option α → Option α
  | some v, _ => some v
  | none, o => o

/-- Per-key description of the `load()` merge, used to characterize
`loadMerge`: an absent stored field receives the default; when both sides
are objects, the stored object receives the default object's missing nested
keys; any other stored value is kept as is. -/
def mergeSpec (sv dv : Option Value) : Option Value :=
  match dv with
  | none => sv
  | some d =>
    match sv, d with
    | none, _ => some d
    | some (Value.obj lobj), Value.obj dobj => some (Value.obj (mergeMissing lobj dobj))
    | some v, _ => some v

/-- Shape agreement of one stored row with the defaults: when the default
value under the same key is an object, the stored value under that key is an
object too (any stored map deserializable into `Settings` satisfies this). -/
def shapeOk (defaults : List (String × Value)) (p : String × Value) : Bool :=
  match lookupA defaults p.1 with
  | some (Value.obj _) =>
    match p.2 with
    | Value.obj _ => true
    | _ => false
  | _ => true

/-- Database / snapshot effects of `write()`. -/
inductive CfgEvent where
  | dbInsert (k : String) (v : Value)
  | publish (snap : List (String × Value))

/-- `write(settings)` (config.rs 170–201): filter the pairs by the known
top-level field names of the current snapshot, return at once when nothing
survives, otherwise persist each survivor, fold it into the snapshot, and
publish the final snapshot once. -/
def writeConfig (snapshot : List (String × Value)) (pairs : List (String × Value)) :
    List CfgEvent × List (String × Value) :=
  let keys := snapshot.map Prod.fst
  let valid := pairs.filter (fun p => keys.contains p.1)
  if valid.isEmpty then ([], snapshot)
  else
    let newSnap := valid.foldl (fun acc p => insertA acc p.1 p.2) snapshot
    (valid.map (fun p => CfgEvent.dbInsert p.1 p.2) ++ [CfgEvent.publish newSnap], newSnap)

/-! ## Cookie jar (`storage/cookies.rs`)

`insert(cookie)` matches `^([^=]+)=([^;]+)` to split the leading
name=value pair (failure is the "Invalid Cookie" error) and then scans
the whole line with `(?i)\b(path|domain|expires|httponly|secure)\b(?:=([^;]*))?`,
applying every capture to the row; an `Expires` value is parsed from
`"[weekday repr:short], [day] [month repr:short] [year] [hour]:[minute]:[second] GMT"`
and converted to a unix timestamp.  We embed both regexes operationally:
the anchored pair splits at the first `=` (name and value must be
non-empty), and the scanner walks the text left to right, matching the
five alternatives case-insensitively between word boundaries, with the
optional `=([^;]*)` capture. -/

/-- A stored cookie row (cookies.rs `CookieRow`). -/
structure CookieRow where
  name : String
  value : String
  path : Option String
  domain : Option String
  expires : Option Int
  httponly : Bool
  secure : Bool
deriving DecidableEq

/-- Errors of `insert`: the name=value match failure, or a bad `Expires` date. -/
inductive CookieError where
  | invalidCookie
  | malformedExpiry
deriving DecidableEq

/-- Rust `str::trim` on a character list. -/
def trimChars (s : List Char) : List Char :=
  ((s.dropWhile Char.isWhitespace).reverse.dropWhile Char.isWhitespace).reverse

/-- The anchored capture `^([^=]+)=([^;]+)`: a non-empty run of non-`=`
characters, `=`, then a non-empty run of non-`;` characters.  The first
group necessarily ends at the first `=` of the input. -/
def captureNameValue (s : List Char) : Option (List Char × List Char) :=
  let nm := s.takeWhile (fun c => c ≠ '=')
  match s.dropWhile (fun c => c ≠ '=') with
  | '=' :: rest =>
    let v := rest.takeWhile (fun c => c ≠ ';')
    if nm = [] ∨ v = [] then none else some (nm, v)
  | _ => none

/-- Word character of the regex `\b` boundary (`[0-9A-Za-z_]` for this ASCII input). -/
def isWordChar (c : Char) : Bool := c.isAlphanum || c = '_'

/-- `\b` holds before the (alphabetic) keyword iff the previous character,
when there is one, is not a word character. -/
def boundaryBefore : Option Char → Bool
  | none => true
  | some c => !isWordChar c

/-- Case-insensitive literal match of a lowercase keyword; returns the remainder. -/
def matchKwAux : List Char → List Char → Option (List Char)
  | [], rest => some rest
  | _, [] => none
  | k :: ks, c :: cs => if c.toLower = k then matchKwAux ks cs else none

/-- The five attribute alternatives, in the pattern's preference order. -/
def attrAlternatives : List (List Char) :=
  [['p', 'a', 't', 'h'],
   ['d', 'o', 'm', 'a', 'i', 'n'],
   ['e', 'x', 'p', 'i', 'r', 'e', 's'],
   ['h', 't', 't', 'p', 'o', 'n', 'l', 'y'],
   ['s', 'e', 'c', 'u', 'r', 'e']]

/-- Try the alternatives in order at the current position; a match must be
followed by a word boundary (next character absent or not a word character). -/
def tryAlts : List (List Char) → List Char → Option (List Char × List Char)
  | [], _ => none
  | kw :: kws, s =>
    match matchKwAux kw s with
    | some rest =>
      match rest with
      | [] => some (kw, [])
      | c :: _ => if isWordChar c then tryAlts kws s else some (kw, rest)
    | none => tryAlts kws s

/-- One attempted match of the attribute pattern at the current position:
the keyword (canonical lowercase, as `to_lowercase` of the matched text),
the optional `=([^;]*)` capture, and the remainder of the input. -/
def matchAttrAt (s : List Char) : Option (List Char × Option (List Char) × List Char) :=
  match tryAlts attrAlternatives s with
  | none => none
  | some (kw, rest) =>
    match rest with
    | '=' :: rest2 =>
      some (kw, some (rest2.takeWhile (fun c => c ≠ ';')),
        rest2.dropWhile (fun c => c ≠ ';'))
    | _ => some (kw, none, rest)

/-- The character preceding the scanner's position right after a match
(used for the next `\b` check): the last consumed character. -/
def nextPrevChar (kw : List Char) (cap : Option (List Char)) : Char :=
  match cap with
  | some v => v.getLastD '='
  | none => kw.getLastD 'x'

/-- `captures_iter`: scan left to right, emitting non-overlapping matches of
the attribute pattern.  `fuel` bounds the recursion by the input length. -/
def scanAttrs : Nat → Option Char → List Char → List (List Char × Option (List Char))
  | 0, _, _ => []
  | _ + 1, _, [] => []
  | fuel + 1, prev, c :: rest =>
    if boundaryBefore prev then
      match matchAttrAt (c :: rest) with
      | some (kw, cap, remainder) =>
        (kw, cap) :: scanAttrs fuel (some (nextPrevChar kw cap)) remainder
      | none => scanAttrs fuel (some c) rest
    else scanAttrs fuel (some c) rest

/-- Short month names of the fixed `Expires` format, mapped to month numbers. -/
def monthNum (s : List Char) : Option Nat :=
  if s = ['J', 'a', 'n'] then some 1
  else if s = ['F', 'e', 'b'] then some 2
  else if s = ['M', 'a', 'r'] then some 3
  else if s = ['A', 'p', 'r'] then some 4
  else if s = ['M', 'a', 'y'] then some 5
  else if s = ['J', 'u', 'n'] then some 6
  else if s = ['J', 'u', 'l'] then some 7
  else if s = ['A', 'u', 'g'] then some 8
  else if s = ['S', 'e', 'p'] then some 9
  else if s = ['O', 'c', 't'] then some 10
  else if s = ['N', 'o', 'v'] then some 11
  else if s = ['D', 'e', 'c'] then some 12
  else none

/-- Short weekday names of the fixed `Expires` format (value unused by the
date that is built, exactly as in the `time` crate when y/m/d are present). -/
def weekdayNames : List (List Char) :=
  [['M', 'o', 'n'], ['T', 'u', 'e'], ['W', 'e', 'd'], ['T', 'h', 'u'],
   ['F', 'r', 'i'], ['S', 'a', 't'], ['S', 'u', 'n']]

def parseDigit (c : Char) : Option Nat :=
  if c.isDigit then some (c.toNat - 48) else none

/-- Exactly two digits. -/
def parse2 : List Char → Option (Nat × List Char)
  | a :: b :: rest => do
    let x ← parseDigit a
    let y ← parseDigit b
    pure (10 * x + y, rest)
  | _ => none

/-- Exactly four digits. -/
def parse4 : List Char → Option (Nat × List Char)
  | a :: b :: c :: d :: rest => do
    let x ← parseDigit a
    let y ← parseDigit b
    let z ← parseDigit c
    let w ← parseDigit d
    pure (1000 * x + 100 * y + 10 * z + w, rest)
  | _ => none

/-- Exact literal match, returning the remainder. -/
def expectLit : List Char → List Char → Option (List Char)
  | [], rest => some rest
  | _, [] => none
  | e :: es, c :: cs => if c = e then expectLit es cs else none

/-- First matching weekday name, returning the remainder. -/
def parseWeekday : List (List Char) → List Char → Option (List Char)
  | [], _ => none
  | w :: ws, s =>
    match expectLit w s with
    | some rest => some rest
    | none => parseWeekday ws s

/-- Proleptic-Gregorian leap year. -/
def isLeapYear (y : Nat) : Bool :=
  (y % 4 = 0 && y % 100 ≠ 0) || y % 400 = 0

def daysInMonth (y m : Nat) : Nat :=
  if m = 2 then (if isLeapYear y then 29 else 28)
  else if m = 4 ∨ m = 6 ∨ m = 9 ∨ m = 11 then 30
  else 31

/-- Days from 0000-01-01 to year `y`-01-01 (proleptic Gregorian, year 0 is leap). -/
def daysBeforeYear (y : Nat) : Nat :=
  365 * y + (y + 3) / 4 - (y + 99) / 100 + (y + 399) / 400

/-- Days from `y`-01-01 to `y`-`m`-01. -/
def daysBeforeMonth (leap : Bool) (m : Nat) : Nat :=
  let base :=
    match m with
    | 1 => 0 | 2 => 31 | 3 => 59 | 4 => 90 | 5 => 120 | 6 => 151
    | 7 => 181 | 8 => 212 | 9 => 243 | 10 => 273 | 11 => 304 | _ => 334
  if leap ∧ m > 2 then base + 1 else base

/-- Unix timestamp of a UTC civil date-time (`assume_utc().unix_timestamp()`);
719528 is the day number of 1970-01-01. -/
def civilToTimestamp (y m d hh mi ss : Nat) : Int :=
  ((daysBeforeYear y + daysBeforeMonth (isLeapYear y) m + (d - 1) : Int) - 719528) * 86400
    + (hh * 3600 + mi * 60 + ss : Int)

/-- Parse of the fixed `Expires` format
`<weekday>, <dd> <Mon> <yyyy> <hh>:<mm>:<ss> GMT` into a unix timestamp,
validating the calendar fields as `PrimitiveDateTime::parse` does. -/
def parseExpires (s0 : List Char) : Option Int :=
  match parseWeekday weekdayNames s0 with
  | none => none
  | some s1 =>
  match expectLit [',', ' '] s1 with
  | none => none
  | some s2 =>
  match parse2 s2 with
  | none => none
  | some ds =>
  match expectLit [' '] ds.2 with
  | none => none
  | some s3 =>
  match monthNum (s3.take 3) with
  | none => none
  | some m =>
  match expectLit [' '] (s3.drop 3) with
  | none => none
  | some s4 =>
  match parse4 s4 with
  | none => none
  | some ys =>
  match expectLit [' '] ys.2 with
  | none => none
  | some s5 =>
  match parse2 s5 with
  | none => none
  | some hs =>
  match expectLit [':'] hs.2 with
  | none => none
  | some s6 =>
  match parse2 s6 with
  | none => none
  | some ms =>
  match expectLit [':'] ms.2 with
  | none => none
  | some s7 =>
  match parse2 s7 with
  | none => none
  | some ss =>
  match expectLit [' ', 'G', 'M', 'T'] ss.2 with
  | none => none
  | some s8 =>
  if s8 = [] ∧ 1 ≤ ds.1 ∧ ds.1 ≤ daysInMonth ys.1 m ∧ hs.1 < 24 ∧ ms.1 < 60
      ∧ ss.1 < 60 then
    some (civilToTimestamp ys.1 m ds.1 hs.1 ms.1 ss.1)
  else none

/-- Apply one scanned attribute capture to the row (cookies.rs 118–139):
the captured value defaults to `""` and is trimmed; `path`/`domain` store it,
`expires` parses it (a bad date fails the whole insert), `httponly`/`secure`
set their flags. -/
def applyAttr (row : CookieRow) (a : List Char × Option (List Char)) :
    Except CookieError CookieRow :=
  let value := trimChars (a.2.getD [])
  if a.1 = ['p', 'a', 't', 'h'] then .ok { row with path := some (String.mk value) }
  else if a.1 = ['d', 'o', 'm', 'a', 'i', 'n'] then
    .ok { row with domain := some (String.mk value) }
  else if a.1 = ['e', 'x', 'p', 'i', 'r', 'e', 's'] then
    match parseExpires value with
    | some t => .ok { row with expires := some t }
    | none => .error .malformedExpiry
  else if a.1 = ['h', 't', 't', 'p', 'o', 'n', 'l', 'y'] then
    .ok { row with httponly := true }
  else if a.1 = ['s', 'e', 'c', 'u', 'r', 'e'] then .ok { row with secure := true }
  else .ok row

def applyAttrs : CookieRow → List (List Char × Option (List Char)) →
    Except CookieError CookieRow
  | row, [] => .ok row
  | row, a :: rest =>
    match applyAttr row a with
    | .ok r => applyAttrs r rest
    | .error e => .error e

/-- The parsing phase of `insert(cookie)` (cookies.rs 83–139) over the raw
characters: the anchored name=value match (else `InvalidCookie`), then every
attribute capture in scan order. -/
def parseCookieChars (s : List Char) : Except CookieError CookieRow :=
  match captureNameValue s with
  | none => .error .invalidCookie
  | some nv =>
    applyAttrs
      ⟨String.mk (trimChars nv.1), String.mk (trimChars nv.2),
        none, none, none, false, false⟩
      (scanAttrs s.length none s)

/-- The parsing phase of `insert(cookie)` on the raw string. -/
def parseCookie (raw : String) : Except CookieError CookieRow :=
  parseCookieChars raw.toList

/-- `insert(cookie)` end to end: parse, then upsert keyed by the cookie name,
overwriting every attribute column on conflict.  A parse error leaves the
table untouched (the statement is never built). -/
def cookiesInsert (db : List (String × CookieRow)) (raw : String) :
    Except CookieError (List (String × CookieRow)) :=
  match parseCookie raw with
  | .error e => .error e
  | .ok row => .ok (insertA db row.name row)

/-! ## Task archive (`storage/archive.rs`)

Modelled from the spec: the `Task` shape and its serde round-trip live in
the external `queue` module (`queue::types`), which is not part of the
storage sources; the spec requires only an `id`, a `state` drawn from a
closed lifecycle set with a distinguished "active" variant, and a
self-describing serialized form.  `Task` therefore carries `id`, `state`
and an opaque `rest` for the remaining fields; a stored `value` cell is
either the serializer's output (which deserializes back to the task) or
corrupt text (which fails to deserialize). -/

/-- Modelled from the spec: lifecycle states with the distinguished
`active` variant recognized by the downgrade; all other states are opaque. -/
inductive TaskState where
  | active
  | paused
  | other (tag : String)
deriving DecidableEq

/-- Modelled from the spec: a queue task, with its non-id non-state fields
collapsed into `rest`. -/
structure Task where
  id : String
  state : TaskState
  rest : String
deriving DecidableEq

/-- A stored `value` cell: serialized task JSON, or text that does not parse. -/
inductive Persisted where
  | task (tid : String) (state : TaskState) (rest : String)
  | corrupt (raw : String)
deriving DecidableEq

/-- Modelled from the spec: `serde_json::to_string(task)`. -/
def serializeTask (t : Task) : Persisted :=
  Persisted.task t.id t.state t.rest

/-- Modelled from the spec: `serde_json::from_str` on a stored cell. -/
def deserializeTask : Persisted → Option Task
  | Persisted.task i s r => some ⟨i, s, r⟩
  | Persisted.corrupt _ => none

/-- The decoded task of a cell (meaningful when `deserializeTask` succeeds). -/
def taskOf (v : Persisted) : Task :=
  (deserializeTask v).getD ⟨"", TaskState.paused, ""⟩

/-- An archive row: primary key `name`, serialized `value`, `updated_at`. -/
structure ArchiveRow where
  name : String
  value : Persisted
  updatedAt : Int
deriving DecidableEq

/-- A well-formed archive row: the cell deserializes and the task id matches
the row's primary key, as every row written by `upsert` does. -/
def wfRow (r : ArchiveRow) : Bool :=
  match r.value with
  | Persisted.task i _ _ => i = r.name
  | Persisted.corrupt _ => false

/-- `upsert(task)` (archive.rs 87–107): one INSERT .. ON CONFLICT(name)
DO UPDATE value, updated_at, keyed by the task id. -/
def upsertRow : List ArchiveRow → ArchiveRow → List ArchiveRow
  | [], r => [r]
  | x :: xs, r => if x.name = r.name then r :: xs else x :: upsertRow xs r

def archiveUpsert (db : List ArchiveRow) (t : Task) (now : Int) : List ArchiveRow :=
  upsertRow db ⟨t.id, serializeTask t, now⟩

/-- The load-time downgrade (archive.rs 76–78): an `Active` state becomes
`Paused`; every other state is untouched. -/
def downgrade (t : Task) : Task :=
  if t.state = TaskState.active then { t with state := TaskState.paused } else t

/-- The row loop of `load()` (archive.rs 70–82): deserialize each `value`
(one failure aborts the whole load), downgrade, and insert into the task map
keyed by the task's own id. -/
def archiveLoadTasks : List Persisted → List (String × Task) →
    Option (List (String × Task))
  | [], acc => some acc
  | v :: rest, acc =>
    match deserializeTask v with
    | none => none
    | some t => archiveLoadTasks rest (insertA acc t.id (downgrade t))

/-- `load()` (archive.rs 50–85): SELECT the `value` column only, clear the
in-memory task map (discarding `prior` wholesale), refill it row by row.
The rows themselves are returned unchanged: `load` issues no write. -/
def archiveLoad (db : List ArchiveRow) (prior : List (String × Task)) :
    Option (List ArchiveRow × List (String × Task)) :=
  let cleared : List (String × Task) := []
  let rows := db.map ArchiveRow.value
  (archiveLoadTasks rows cleared).map (fun m => (db, m))

/-! ## Association-list lemmas -/

theorem lookupA_insertA {α : Type} (l : List (String × α)) (key k : String) (v : α) :
    lookupA (insertA l key v) k = if k = key then some v else lookupA l k := by
  induction l with
  | nil =>
    by_cases h : k = key
    · subst h; simp [insertA, lookupA]
    · simp [insertA, lookupA, h, Ne.symm h]
  | cons p rest ih =>
    obtain ⟨a, b⟩ := p
    by_cases ha : a = key
    · subst ha
      by_cases h : a = k
      · subst h; simp [insertA, lookupA]
      · simp [insertA, lookupA, h, Ne.symm h]
    · by_cases h2 : a = k
      · subst h2
        simp [insertA, lookupA, ha, ih]
      · simp [insertA, lookupA, ha, h2, ih]

theorem lookupA_append {α : Type} (l₁ l₂ : List (String × α)) (k : String) :
    lookupA (l₁ ++ l₂) k = (lookupA l₁ k).orElse (fun _ => lookupA l₂ k) := by
  induction l₁ with
  | nil => simp [lookupA]
  | cons p rest ih =>
    by_cases h : p.1 = k <;> simp [lookupA, h, ih]

theorem insertA_of_lookupA_none {α : Type} (l : List (String × α)) (key : String) (v : α)
    (h : lookupA l key = none) : insertA l key v = l ++ [(key, v)] := by
  induction l with
  | nil => simp [insertA]
  | cons p rest ih =>
    obtain ⟨a, b⟩ := p
    by_cases ha : a = key
    · simp [lookupA, ha] at h
    · simp [lookupA, ha] at h
      simp [insertA, ha, ih h]

theorem lookupA_of_mem_nodup {α : Type} (l : List (String × α)) (k : String) (v : α)
    (hmem : (k, v) ∈ l) (hnd : (l.map Prod.fst).Nodup) : lookupA l k = some v := by
  induction l with
  | nil => simp at hmem
  | cons p rest ih =>
    obtain ⟨a, b⟩ := p
    rw [List.map_cons] at hnd
    have hnd' := List.nodup_cons.mp hnd
    rcases List.mem_cons.mp hmem with heq | htail
    · cases heq; simp [lookupA]
    · have hk : a ≠ k := by
        intro h
        subst h
        exact hnd'.1 (by simpa using List.mem_map_of_mem Prod.fst htail)
      simp [lookupA, hk, ih htail hnd'.2]

theorem lookupA_eq_none_iff {α : Type} (l : List (String × α)) (k : String) :
    lookupA l k = none ↔ k ∉ l.map Prod.fst := by
  induction l with
  | nil => simp [lookupA]
  | cons p rest ih =>
    by_cases h : p.1 = k
    · simp [lookupA, h]
    · have h2 : ¬ k = p.1 := fun hh => h hh.symm
      simp [lookupA, h, h2, ih]

theorem mem_of_lookupA_some {α : Type} (l : List (String × α)) (k : String) (v : α)
    (h : lookupA l k = some v) : (k, v) ∈ l := by
  induction l with
  | nil => simp [lookupA] at h
  | cons p rest ih =>
    obtain ⟨a, b⟩ := p
    by_cases hp : a = k
    · subst hp
      simp [lookupA] at h
      subst h
      exact List.mem_cons_self _ _
    · simp [lookupA, hp] at h
      exact List.mem_cons_of_mem _ (ih h)

theorem lookupA_foldl_insertA_not_mem {α : Type} (l init : List (String × α))
    (k : String) (hk : k ∉ l.map Prod.fst) :
    lookupA (l.foldl (fun acc p => insertA acc p.1 p.2) init) k = lookupA init k := by
  induction l generalizing init with
  | nil => simp
  | cons p rest ih =>
    have hk' : ¬ k = p.1 ∧ k ∉ List.map Prod.fst rest := by
      simpa [not_or] using hk
    rw [List.foldl_cons, ih _ hk'.2, lookupA_insertA]
    simp [hk'.1]

theorem lookupA_foldl_insertA_mem {α : Type} (l init : List (String × α))
    (k : String) (v : α) (hmem : (k, v) ∈ l) (hnd : (l.map Prod.fst).Nodup) :
    lookupA (l.foldl (fun acc p => insertA acc p.1 p.2) init) k = some v := by
  induction l generalizing init with
  | nil => simp at hmem
  | cons p rest ih =>
    obtain ⟨a, b⟩ := p
    rw [List.map_cons] at hnd
    have hnd' := List.nodup_cons.mp hnd
    rw [List.foldl_cons]
    rcases List.mem_cons.mp hmem with heq | htail
    · cases heq
      rw [lookupA_foldl_insertA_not_mem rest _ k (by simpa using hnd'.1),
        lookupA_insertA]
      simp
    · exact ih _ htail hnd'.2

/-! ## C1–C3: migration engine and connection manager -/

/-- C1: at startup, `check_latest` reads the stored version (an absent meta
row reads as 0); when it equals the target, nothing at all is executed and
the state is untouched; otherwise the pass runs, in exactly this order and
inside one transaction, the tolerated rename to the timestamp-suffixed
archival name, the create statement, the data-migration hook on the archival
name, the commit, and only then the version write for the table's name. -/
theorem migration_check_latest_contract (name ts : String) (latest : Int)
    (st : DbState) :
    (lookupA st.meta name = none → get_version st.meta name = 0)
    ∧ (get_version st.meta name = latest →
        check_latest name latest ts ⟨false, false, false⟩ st = ⟨[], .ok (), st⟩)
    ∧ (get_version st.meta name ≠ latest →
        (check_latest name latest ts ⟨false, false, false⟩ st).events
          = [MigEvent.beginTx, MigEvent.renameTable name (name ++ "_" ++ ts),
             MigEvent.createTable name, MigEvent.migrateHook (name ++ "_" ++ ts),
             MigEvent.commitTx, MigEvent.recordVersion name latest]
        ∧ (check_latest name latest ts ⟨false, false, false⟩ st).outcome = .ok ()
        ∧ (check_latest name latest ts ⟨false, false, false⟩ st).state.meta
            = set_version st.meta name latest) := by
  refine ⟨fun h => by simp [get_version, h], fun h => by simp [check_latest, h], ?_⟩
  intro h
  refine ⟨?_, ?_, ?_⟩ <;> simp [check_latest, h]

theorem migration_check_latest_contract_witness :
    get_version ([] : List (String × Int)) "config" = 0
    ∧ check_latest "config" 1 "20250101" ⟨false, false, false⟩
        ⟨[("config", 1)], ["config"]⟩
        = ⟨[], .ok (), ⟨[("config", 1)], ["config"]⟩⟩
    ∧ (check_latest "config" 1 "20250101" ⟨false, false, false⟩ ⟨[], []⟩).events
        = [MigEvent.beginTx, MigEvent.renameTable "config" "config_20250101",
           MigEvent.createTable "config", MigEvent.migrateHook "config_20250101",
           MigEvent.commitTx, MigEvent.recordVersion "config" 1] := by
  refine ⟨(migration_check_latest_contract "config" "20250101" 1 ⟨[], []⟩).1 rfl,
    (migration_check_latest_contract "config" "20250101" 1
      ⟨[("config", 1)], ["config"]⟩).2.1 (by decide), ?_⟩
  have h := (migration_check_latest_contract "config" "20250101" 1 ⟨[], []⟩).2.2
    (by decide)
  exact h.1.trans (by decide)

/-- C2: when the create statement, the migration hook or the commit of an
upgrade fails, `check_latest` reports the error, the whole transaction rolls
back leaving the database state (meta version included) unchanged, and a
retried startup still sees a version mismatch, so it re-attempts the same
migration. -/
theorem migration_failure_rollback (name ts : String) (latest : Int)
    (st : DbState) (f : FaultPlan)
    (hf : f.createFails = true ∨ f.hookFails = true ∨ f.commitFails = true)
    (hv : get_version st.meta name ≠ latest) :
    (∃ e, (check_latest name latest ts f st).outcome = .error e)
    ∧ (check_latest name latest ts f st).state = st
    ∧ get_version (check_latest name latest ts f st).state.meta name ≠ latest := by
  obtain ⟨fc, fh, fm⟩ := f
  cases fc <;> cases fh <;> cases fm
  case false.false.false => exact absurd hf (by simp)
  all_goals refine ⟨?_, ?_, ?_⟩ <;> simp [check_latest, hv]

theorem migration_failure_rollback_witness :
    (∃ e, (check_latest "cookies" 1 "20250101" ⟨true, false, false⟩
        ⟨[], []⟩).outcome = .error e)
    ∧ (check_latest "cookies" 1 "20250101" ⟨true, false, false⟩ ⟨[], []⟩).state
        = ⟨[], []⟩ := by
  have h := migration_failure_rollback "cookies" "20250101" 1 ⟨[], []⟩
    ⟨true, false, false⟩ (Or.inl rfl) (by decide)
  exact ⟨h.1, h.2.1⟩

/-- C3: the code cannot satisfy the specified import sequence: on a process
whose connection was already initialized, `import` does run backup → close →
remove main, wal, shm → copy-in, but the final re-initialization fails with
"Database already initialized", because `close_db` cannot clear the
`OnceLock` that `init_db` sets — so `import` returns this error instead of
succeeding. -/
theorem import_reinit_always_fails :
    importDb true ⟨true⟩
      = ([ImpEvent.backupCopy, ImpEvent.closePool, ImpEvent.removeMain,
          ImpEvent.removeWal, ImpEvent.removeShm, ImpEvent.copyIn,
          ImpEvent.openPool],
         .error DbError.alreadyInitialized) := rfl

/-! ## C4–C5: config store -/

theorem lookupA_mergeMissing (dobj lobj : List (String × Value)) (k : String) :
    lookupA (mergeMissing lobj dobj) k = orO (lookupA lobj k) (lookupA dobj k) := by
  induction dobj generalizing lobj with
  | nil =>
    cases h : lookupA lobj k <;> simp [mergeMissing, lookupA, orO, h]
  | cons p rest ih =>
    obtain ⟨a, b⟩ := p
    rw [mergeMissing]
    cases hsa : lookupA lobj a with
    | some w =>
      rw [if_pos (by simp [hsa])]
      rw [ih lobj]
      by_cases hk : a = k
      · subst hk
        simp [lookupA, hsa, orO]
      · simp [lookupA, hk, orO]
    | none =>
      rw [if_neg (by simp [hsa])]
      rw [ih (insertA lobj a b)]
      by_cases hk : k = a
      · subst hk
        simp [lookupA_insertA, lookupA, hsa, orO]
      · have hk2 : ¬ a = k := fun hh => hk hh.symm
        simp [lookupA_insertA, lookupA, hk, hk2]

theorem lookupA_mergeEntry_self (loc : List (String × Value)) (a : String)
    (dv : Value) :
    lookupA (mergeEntry loc a dv) a = mergeSpec (lookupA loc a) (some dv) := by
  unfold mergeEntry mergeSpec
  cases hsa : lookupA loc a with
  | none => simp [lookupA_insertA]
  | some lv =>
    cases dv with
    | atom s => cases lv <;> simp [hsa]
    | obj dobj =>
      cases lv with
      | atom s2 => simp [hsa]
      | obj lobj => simp [lookupA_insertA]

theorem lookupA_mergeEntry_ne (loc : List (String × Value)) (a : String)
    (dv : Value) (k : String) (hk : k ≠ a) :
    lookupA (mergeEntry loc a dv) k = lookupA loc k := by
  unfold mergeEntry
  cases lookupA loc a with
  | none => simp [lookupA_insertA, hk]
  | some lv =>
    cases dv <;> cases lv <;> simp [lookupA_insertA, hk]

theorem lookupA_loadMerge (stored defaults : List (String × Value)) (k : String)
    (hnd : (defaults.map Prod.fst).Nodup) :
    lookupA (loadMerge stored defaults) k
      = mergeSpec (lookupA stored k) (lookupA defaults k) := by
  induction defaults generalizing stored with
  | nil =>
    cases h : lookupA stored k <;> simp [loadMerge, lookupA, mergeSpec, h]
  | cons p rest ih =>
    obtain ⟨a, dv⟩ := p
    rw [List.map_cons] at hnd
    have hnd' := List.nodup_cons.mp hnd
    rw [loadMerge, ih (mergeEntry stored a dv) hnd'.2]
    by_cases hk : k = a
    · subst hk
      have hrest : lookupA rest k = none :=
        (lookupA_eq_none_iff rest k).mpr (by simpa using hnd'.1)
      rw [hrest, lookupA_mergeEntry_self]
      simp [lookupA, mergeSpec]
    · have hk2 : ¬ a = k := fun hh => hk hh.symm
      rw [lookupA_mergeEntry_ne _ _ _ _ hk]
      simp [lookupA, hk2]

/-- C4: after `load()` on any stored map whose shape agrees with the typed
`Settings` (object fields stored as objects), the published snapshot has
every default top-level field and, one level down, every default nested key;
every stored top-level value is preserved (an object by merging below it,
anything else untouched); a stored nested key keeps its stored value, a
default nested key fills in only where absent; and no other key appears. -/
theorem config_load_merge_contract (stored defaults : List (String × Value))
    (hnd : (defaults.map Prod.fst).Nodup)
    (hshape : ∀ p ∈ stored, shapeOk defaults p = true) :
    (∀ k dv, lookupA defaults k = some dv →
      (lookupA (loadMerge stored defaults) k).isSome = true)
    ∧ (∀ k dobj, lookupA defaults k = some (Value.obj dobj) →
        ∃ lobj, lookupA (loadMerge stored defaults) k = some (Value.obj lobj)
          ∧ ∀ sk sv, lookupA dobj sk = some sv →
              (lookupA lobj sk).isSome = true)
    ∧ (∀ k v, lookupA stored k = some v →
        (∀ dobj, lookupA defaults k = some (Value.obj dobj) →
          ∃ lobj, v = Value.obj lobj
            ∧ lookupA (loadMerge stored defaults) k
                = some (Value.obj (mergeMissing lobj dobj))
            ∧ ∀ sk, lookupA (mergeMissing lobj dobj) sk
                = orO (lookupA lobj sk) (lookupA dobj sk))
        ∧ ((∀ dobj, lookupA defaults k ≠ some (Value.obj dobj)) →
            lookupA (loadMerge stored defaults) k = some v))
    ∧ (∀ k, lookupA stored k = none → lookupA defaults k = none →
        lookupA (loadMerge stored defaults) k = none) := by
  refine ⟨?_, ?_, ?_, ?_⟩
  · intro k dv hd
    rw [lookupA_loadMerge stored defaults k hnd, hd]
    cases hs : lookupA stored k with
    | none => simp [mergeSpec]
    | some v => cases v <;> cases dv <;> simp [mergeSpec]
  · intro k dobj hd
    rw [lookupA_loadMerge stored defaults k hnd, hd]
    cases hs : lookupA stored k with
    | none =>
      refine ⟨dobj, by simp [mergeSpec], fun sk sv hsv => by simp [hsv]⟩
    | some v =>
      have hm := hshape (k, v) (mem_of_lookupA_some _ _ _ hs)
      unfold shapeOk at hm
      rw [show (k, v).1 = k from rfl, hd] at hm
      cases v with
      | atom s => simp at hm
      | obj lobj =>
        refine ⟨mergeMissing lobj dobj, by simp [mergeSpec], fun sk sv hsv => ?_⟩
        rw [lookupA_mergeMissing, hsv]
        cases lookupA lobj sk <;> simp [orO]
  · intro k v hs
    constructor
    · intro dobj hd
      have hm := hshape (k, v) (mem_of_lookupA_some _ _ _ hs)
      unfold shapeOk at hm
      rw [show (k, v).1 = k from rfl, hd] at hm
      cases v with
      | atom s => simp at hm
      | obj lobj =>
        refine ⟨lobj, rfl, ?_, fun sk => lookupA_mergeMissing dobj lobj sk⟩
        rw [lookupA_loadMerge stored defaults k hnd, hd, hs]
        simp [mergeSpec]
    · intro hnotobj
      rw [lookupA_loadMerge stored defaults k hnd, hs]
      cases hd : lookupA defaults k with
      | none => simp [mergeSpec]
      | some d =>
        cases d with
        | atom s => cases v <;> simp [mergeSpec]
        | obj dobj => exact absurd hd (hnotobj dobj)
  · intro k hs hd
    rw [lookupA_loadMerge stored defaults k hnd, hs, hd]
    simp [mergeSpec]

theorem config_load_merge_contract_witness :
    (lookupA (loadMerge
        [("b", Value.obj [("x", Value.atom "9")]), ("d", Value.atom "7")]
        [("a", Value.atom "1"),
         ("b", Value.obj [("x", Value.atom "2"), ("y", Value.atom "3")]),
         ("c", Value.atom "4")]) "a").isSome = true
    ∧ lookupA (loadMerge
        [("b", Value.obj [("x", Value.atom "9")]), ("d", Value.atom "7")]
        [("a", Value.atom "1"),
         ("b", Value.obj [("x", Value.atom "2"), ("y", Value.atom "3")]),
         ("c", Value.atom "4")]) "d" = some (Value.atom "7")
    ∧ lookupA (loadMerge
        [("b", Value.obj [("x", Value.atom "9")]), ("d", Value.atom "7")]
        [("a", Value.atom "1"),
         ("b", Value.obj [("x", Value.atom "2"), ("y", Value.atom "3")]),
         ("c", Value.atom "4")]) "b"
        = some (Value.obj (mergeMissing [("x", Value.atom "9")]
            [("x", Value.atom "2"), ("y", Value.atom "3")])) := by
  have h := config_load_merge_contract
    [("b", Value.obj [("x", Value.atom "9")]), ("d", Value.atom "7")]
    [("a", Value.atom "1"),
     ("b", Value.obj [("x", Value.atom "2"), ("y", Value.atom "3")]),
     ("c", Value.atom "4")]
    (by decide)
    (by
      intro p hp
      rcases List.mem_cons.mp hp with h1 | h1
      · subst h1; rfl
      · rcases List.mem_cons.mp h1 with h2 | h2
        · subst h2; rfl
        · simp at h2)
  refine ⟨h.1 "a" (Value.atom "1") rfl, ?_, ?_⟩
  · refine (h.2.2.1 "d" (Value.atom "7") rfl).2 ?_
    intro dobj hc
    rw [show lookupA
        [("a", Value.atom "1"),
         ("b", Value.obj [("x", Value.atom "2"), ("y", Value.atom "3")]),
         ("c", Value.atom "4")] "d" = (none : Option Value) from rfl] at hc
    exact Option.noConfusion hc
  · obtain ⟨lobj, hv, heq, _⟩ := (h.2.2.1 "b" (Value.obj [("x", Value.atom "9")])
      rfl).1 [("x", Value.atom "2"), ("y", Value.atom "3")] rfl
    injection hv with hv2
    subst hv2
    exact heq

/-- C5: `write(pairs)` silently drops every pair whose name is not a known
top-level field — such a name triggers no insert and stays absent from the
published snapshot; when nothing survives the filter, the call performs no
work at all; otherwise the event trace is exactly the surviving inserts in
order followed by a single publish of the final snapshot, in which every
surviving pair is visible. -/
theorem config_write_filter_contract (snapshot pairs : List (String × Value))
    (hnd : (pairs.map Prod.fst).Nodup) :
    (pairs.filter (fun p => (snapshot.map Prod.fst).contains p.1) = [] →
      writeConfig snapshot pairs = ([], snapshot))
    ∧ (pairs.filter (fun p => (snapshot.map Prod.fst).contains p.1) ≠ [] →
        (writeConfig snapshot pairs).1
          = (pairs.filter (fun p => (snapshot.map Prod.fst).contains p.1)).map
              (fun p => CfgEvent.dbInsert p.1 p.2)
            ++ [CfgEvent.publish (writeConfig snapshot pairs).2]
        ∧ ∀ k v, (k, v) ∈ pairs.filter (fun p => (snapshot.map Prod.fst).contains p.1) →
            lookupA (writeConfig snapshot pairs).2 k = some v)
    ∧ (∀ k, k ∉ snapshot.map Prod.fst →
        (∀ w, CfgEvent.dbInsert k w ∉ (writeConfig snapshot pairs).1)
        ∧ lookupA (writeConfig snapshot pairs).2 k = none) := by
  by_cases hv : pairs.filter (fun p => (snapshot.map Prod.fst).contains p.1) = []
  · have hw : writeConfig snapshot pairs = ([], snapshot) := by
      simp only [writeConfig]
      rw [hv]
      rfl
    refine ⟨fun _ => hw, fun hne => absurd hv hne, ?_⟩
    intro k hk
    rw [hw]
    exact ⟨fun w => by simp, (lookupA_eq_none_iff snapshot k).mpr hk⟩
  · have hne : ((pairs.filter
        (fun p => (snapshot.map Prod.fst).contains p.1)).isEmpty) = false := by
      cases he : pairs.filter (fun p => (snapshot.map Prod.fst).contains p.1) with
      | nil => exact absurd he hv
      | cons a l => rfl
    have hw : writeConfig snapshot pairs
        = ((pairs.filter (fun p => (snapshot.map Prod.fst).contains p.1)).map
            (fun p => CfgEvent.dbInsert p.1 p.2)
          ++ [CfgEvent.publish
              ((pairs.filter (fun p => (snapshot.map Prod.fst).contains p.1)).foldl
                (fun acc p => insertA acc p.1 p.2) snapshot)],
          (pairs.filter (fun p => (snapshot.map Prod.fst).contains p.1)).foldl
            (fun acc p => insertA acc p.1 p.2) snapshot) := by
      rw [writeConfig]
      simp only [hne, Bool.false_eq_true, if_false]
    have hndv : ((pairs.filter
        (fun p => (snapshot.map Prod.fst).contains p.1)).map Prod.fst).Nodup :=
      List.Nodup.sublist
        (List.Sublist.map Prod.fst (List.filter_sublist pairs)) hnd
    refine ⟨fun he => absurd he hv, fun _ => ⟨by rw [hw], ?_⟩, ?_⟩
    · intro k v hmem
      rw [hw]
      exact lookupA_foldl_insertA_mem _ snapshot k v hmem hndv
    · intro k hk
      have hkv : k ∉ (pairs.filter
          (fun p => (snapshot.map Prod.fst).contains p.1)).map Prod.fst := by
        intro hc
        rcases List.mem_map.mp hc with ⟨p, hp, hpk⟩
        have := (List.mem_filter.mp hp).2
        rw [hpk] at this
        exact hk (by simpa using this)
      constructor
      · intro w hc
        rw [hw] at hc
        rcases List.mem_append.mp hc with h1 | h1
        · rcases List.mem_map.mp h1 with ⟨p, hp, hpe⟩
          have hpk : p.1 = k := by cases hpe; rfl
          exact hkv (hpk ▸ List.mem_map_of_mem Prod.fst hp)
        · simp at h1
      · rw [hw]
        rw [show ((_, _) : List CfgEvent × List (String × Value)).2
            = (pairs.filter (fun p => (snapshot.map Prod.fst).contains p.1)).foldl
              (fun acc p => insertA acc p.1 p.2) snapshot from rfl]
        rw [lookupA_foldl_insertA_not_mem _ _ _ hkv]
        exact (lookupA_eq_none_iff snapshot k).mpr hk

theorem config_write_filter_contract_witness :
    lookupA (writeConfig
        [("language", Value.atom "en"), ("notify", Value.atom "true")]
        [("bogus", Value.atom "x"), ("language", Value.atom "zh")]).2 "language"
      = some (Value.atom "zh")
    ∧ lookupA (writeConfig
        [("language", Value.atom "en"), ("notify", Value.atom "true")]
        [("bogus", Value.atom "x"), ("language", Value.atom "zh")]).2 "bogus"
      = none := by
  have h := config_write_filter_contract
    [("language", Value.atom "en"), ("notify", Value.atom "true")]
    [("bogus", Value.atom "x"), ("language", Value.atom "zh")] (by decide)
  constructor
  · refine ((h.2.1 ?_).2) "language" (Value.atom "zh") ?_
    · intro hc
      rw [show List.filter
          (fun p => (List.map Prod.fst
            [("language", Value.atom "en"), ("notify", Value.atom "true")]).contains p.1)
          [("bogus", Value.atom "x"), ("language", Value.atom "zh")]
          = [("language", Value.atom "zh")] from rfl] at hc
      exact List.noConfusion hc
    · rw [show List.filter
          (fun p => (List.map Prod.fst
            [("language", Value.atom "en"), ("notify", Value.atom "true")]).contains p.1)
          [("bogus", Value.atom "x"), ("language", Value.atom "zh")]
          = [("language", Value.atom "zh")] from rfl]
      exact List.mem_singleton.mpr rfl
  · exact (h.2.2 "bogus" (by decide)).2

/-! ## C6–C7: cookie jar -/

theorem applyAttr_error_is_expiry (row : CookieRow)
    (a : List Char × Option (List Char)) (e : CookieError)
    (h : applyAttr row a = .error e) : e = CookieError.malformedExpiry := by
  simp only [applyAttr] at h
  split_ifs at h
  split at h
  · cases h
  · cases h
    rfl

theorem applyAttrs_error_is_expiry (attrs : List (List Char × Option (List Char))) :
    ∀ (row : CookieRow) (e : CookieError),
      applyAttrs row attrs = .error e → e = CookieError.malformedExpiry := by
  induction attrs with
  | nil => intro row e h; cases h
  | cons a rest ih =>
    intro row e h
    rw [applyAttrs] at h
    cases ha : applyAttr row a with
    | ok r =>
      rw [ha] at h
      exact ih r e h
    | error e2 =>
      rw [ha] at h
      cases h
      exact applyAttr_error_is_expiry row a _ ha

/-- C6 (amended): `insert` fails with `InvalidCookie` exactly when the
anchored pattern `^([^=]+)=([^;]+)` does not match the raw text — the first
capture may run past a `;`, so the decisive condition is a missing `=`, an
empty name before the first `=`, or an empty value after it, not the shape
of the segment before the first `;`. -/
theorem cookie_invalid_iff_no_pair_match (raw : String) :
    parseCookie raw = .error CookieError.invalidCookie
      ↔ captureNameValue raw.toList = none := by
  unfold parseCookie parseCookieChars
  cases hc : captureNameValue raw.toList with
  | none => simp
  | some nv =>
    constructor
    · intro h
      exact CookieError.noConfusion (applyAttrs_error_is_expiry _ _ _ h)
    · intro h
      exact Option.noConfusion h

theorem cookie_invalid_iff_no_pair_match_witness :
    parseCookie "no pair here" = .error CookieError.invalidCookie := by
  exact (cookie_invalid_iff_no_pair_match "no pair here").mpr rfl

/-- C6 counterexample: on `"malformed;Path=/"` — which has no `=` before the
first `;` — `insert` does not fail with `InvalidCookie`: the pair regex
matches name `"malformed;Path"` and value `"/"`, and the row is upserted. -/
theorem cookie_malformed_input_parses :
    parseCookie "malformed;Path=/"
      = .ok ⟨"malformed;Path", "/", some "/", none, none, false, false⟩
    ∧ cookiesInsert [] "malformed;Path=/"
      = .ok [("malformed;Path",
          ⟨"malformed;Path", "/", some "/", none, none, false, false⟩)] := by
  exact ⟨by rfl, by rfl⟩

/-- C7: the full `Set-Cookie` example parses to name `sid`, value `abc123`,
path `/`, domain `.example.com`, expires at the unix timestamp of
2025-06-09 10:18:14 UTC (1749464294), httponly and secure set, and the
record is upserted under its name. -/
theorem cookie_full_example_contract :
    cookiesInsert []
        "sid=abc123; Path=/; Domain=.example.com; Expires=Wed, 09 Jun 2025 10:18:14 GMT; HttpOnly; Secure"
      = .ok [("sid", ⟨"sid", "abc123", some "/", some ".example.com",
          some 1749464294, true, true⟩)]
    ∧ civilToTimestamp 2025 6 9 10 18 14 = 1749464294 := by
  exact ⟨by rfl, by rfl⟩

/-! ## C8–C10: task archive -/

theorem wfRow_value (r : ArchiveRow) (h : wfRow r = true) :
    deserializeTask r.value = some (taskOf r.value) ∧ (taskOf r.value).id = r.name := by
  obtain ⟨nm, v, ts⟩ := r
  cases v with
  | task i s rest =>
    simp only [wfRow, decide_eq_true_eq] at h
    subst h
    exact ⟨rfl, rfl⟩
  | corrupt s => simp [wfRow] at h

theorem archiveLoadTasks_wf (rows : List ArchiveRow) :
    ∀ (acc : List (String × Task)),
    (∀ r ∈ rows, wfRow r = true) →
    (rows.map ArchiveRow.name).Nodup →
    (∀ r ∈ rows, lookupA acc r.name = none) →
    archiveLoadTasks (rows.map ArchiveRow.value) acc
      = some (acc ++ rows.map (fun r => (r.name, downgrade (taskOf r.value)))) := by
  induction rows with
  | nil => intro acc _ _ _; simp [archiveLoadTasks]
  | cons r rest ih =>
    intro acc hwf hnd hacc
    rw [List.map_cons] at hnd
    have hnd' := List.nodup_cons.mp hnd
    have hw := wfRow_value r (hwf r (List.mem_cons_self _ _))
    simp only [List.map_cons, archiveLoadTasks, hw.1]
    rw [hw.2, insertA_of_lookupA_none acc r.name _ (hacc r (List.mem_cons_self _ _))]
    rw [ih (acc ++ [(r.name, downgrade (taskOf r.value))])
      (fun x hx => hwf x (List.mem_cons_of_mem _ hx)) hnd'.2 ?_]
    · simp
    · intro x hx
      have h1 : lookupA acc x.name = none := hacc x (List.mem_cons_of_mem _ hx)
      have hxn : x.name ≠ r.name := by
        intro hc
        exact hnd'.1 (hc ▸ List.mem_map_of_mem ArchiveRow.name hx)
      rw [lookupA_append, h1]
      simp [lookupA, Option.orElse, Ne.symm hxn]

theorem archiveLoad_wf_eq (db : List ArchiveRow) (prior : List (String × Task))
    (hwf : ∀ r ∈ db, wfRow r = true) (hnd : (db.map ArchiveRow.name).Nodup) :
    archiveLoad db prior
      = some (db, db.map (fun r => (r.name, downgrade (taskOf r.value)))) := by
  simp only [archiveLoad]
  rw [archiveLoadTasks_wf db [] hwf hnd (fun r _ => rfl)]
  rfl

theorem mem_upsertRow (xs : List ArchiveRow) (r x : ArchiveRow)
    (h : x ∈ upsertRow xs r) : x ∈ xs ∨ x = r := by
  induction xs with
  | nil =>
    right
    simpa [upsertRow] using h
  | cons y ys ih =>
    rw [upsertRow] at h
    by_cases hy : y.name = r.name
    · rw [if_pos hy] at h
      rcases List.mem_cons.mp h with h1 | h1
      · right; exact h1
      · left; exact List.mem_cons_of_mem _ h1
    · rw [if_neg hy] at h
      rcases List.mem_cons.mp h with h1 | h1
      · left; exact h1 ▸ List.mem_cons_self _ _
      · rcases ih h1 with h2 | h2
        · left; exact List.mem_cons_of_mem _ h2
        · right; exact h2

theorem upsertRow_self_mem (xs : List ArchiveRow) (r : ArchiveRow) :
    r ∈ upsertRow xs r := by
  induction xs with
  | nil => simp [upsertRow]
  | cons y ys ih =>
    rw [upsertRow]
    by_cases hy : y.name = r.name
    · rw [if_pos hy]; exact List.mem_cons_self _ _
    · rw [if_neg hy]; exact List.mem_cons_of_mem _ ih

theorem mem_name_upsertRow (xs : List ArchiveRow) (r : ArchiveRow) (a : String)
    (h : a ∈ (upsertRow xs r).map ArchiveRow.name) :
    a ∈ xs.map ArchiveRow.name ∨ a = r.name := by
  rcases List.mem_map.mp h with ⟨x, hx, hax⟩
  rcases mem_upsertRow xs r x hx with h1 | h1
  · left; exact hax ▸ List.mem_map_of_mem ArchiveRow.name h1
  · right; rw [← hax, h1]

theorem nodup_name_upsertRow (xs : List ArchiveRow) (r : ArchiveRow)
    (h : (xs.map ArchiveRow.name).Nodup) :
    ((upsertRow xs r).map ArchiveRow.name).Nodup := by
  induction xs with
  | nil => simp [upsertRow]
  | cons y ys ih =>
    rw [List.map_cons] at h
    have h' := List.nodup_cons.mp h
    rw [upsertRow]
    by_cases hy : y.name = r.name
    · rw [if_pos hy, List.map_cons]
      exact List.nodup_cons.mpr ⟨by rw [← hy]; exact h'.1, h'.2⟩
    · rw [if_neg hy, List.map_cons]
      refine List.nodup_cons.mpr ⟨?_, ih h'.2⟩
      intro hmem
      rcases mem_name_upsertRow ys r y.name hmem with h1 | h1
      · exact h'.1 h1
      · exact hy h1

/-- C8: after a successful `load()`, every archive row's deserialized task is
in the returned map under its id, with an `active` state downgraded to
`paused` and any other state untouched; the rows themselves are returned
unchanged — the downgrade rewrites only the in-memory copy. -/
theorem archive_load_downgrade_contract (db : List ArchiveRow)
    (prior : List (String × Task))
    (hwf : ∀ r ∈ db, wfRow r = true) (hnd : (db.map ArchiveRow.name).Nodup) :
    ∃ m, archiveLoad db prior = some (db, m)
      ∧ ∀ r ∈ db, ∀ t, deserializeTask r.value = some t →
          (t.state = TaskState.active →
            lookupA m t.id = some { t with state := TaskState.paused })
          ∧ (t.state ≠ TaskState.active → lookupA m t.id = some t) := by
  refine ⟨_, archiveLoad_wf_eq db prior hwf hnd, ?_⟩
  intro r hr t ht
  have hw := wfRow_value r (hwf r hr)
  have htt : t = taskOf r.value := by
    rw [hw.1] at ht
    cases ht
    rfl
  subst htt
  have hnd2 : ((db.map (fun r => (r.name, downgrade (taskOf r.value)))).map
      Prod.fst).Nodup := by
    rw [List.map_map]
    simpa [Function.comp] using hnd
  have hl := lookupA_of_mem_nodup _ _ _
    (List.mem_map_of_mem (fun r : ArchiveRow => (r.name, downgrade (taskOf r.value)))
      hr) hnd2
  constructor
  · intro hact
    rw [hw.2, hl]
    simp [downgrade, hact, hw.2]
  · intro hnact
    rw [hw.2, hl]
    simp [downgrade, hnact]

theorem archive_load_downgrade_contract_witness :
    ∃ m, archiveLoad
        [⟨"t1", Persisted.task "t1" TaskState.active "p1", 5⟩,
         ⟨"t2", Persisted.task "t2" (TaskState.other "done") "p2", 6⟩]
        [("zombie", ⟨"zombie", TaskState.paused, "z"⟩)]
      = some ([⟨"t1", Persisted.task "t1" TaskState.active "p1", 5⟩,
               ⟨"t2", Persisted.task "t2" (TaskState.other "done") "p2", 6⟩], m)
      ∧ lookupA m "t1" = some ⟨"t1", TaskState.paused, "p1"⟩
      ∧ lookupA m "t2" = some ⟨"t2", TaskState.other "done", "p2"⟩ := by
  obtain ⟨m, hload, hprop⟩ := archive_load_downgrade_contract
    [⟨"t1", Persisted.task "t1" TaskState.active "p1", 5⟩,
     ⟨"t2", Persisted.task "t2" (TaskState.other "done") "p2", 6⟩]
    [("zombie", ⟨"zombie", TaskState.paused, "z"⟩)]
    (by decide) (by decide)
  refine ⟨m, hload, ?_, ?_⟩
  · exact (hprop ⟨"t1", Persisted.task "t1" TaskState.active "p1", 5⟩
      (List.mem_cons_self _ _) ⟨"t1", TaskState.active, "p1"⟩ rfl).1 rfl
  · exact (hprop ⟨"t2", Persisted.task "t2" (TaskState.other "done") "p2", 6⟩
      (List.mem_cons_of_mem _ (List.mem_cons_self _ _))
      ⟨"t2", TaskState.other "done", "p2"⟩ rfl).2 (by simp)

/-- C9: `upsert(task)` followed by `load()` yields, under the task's id, an
in-memory task equal to the input in every field except that an `active`
state has become `paused`; a non-active state is returned entirely
unchanged. -/
theorem archive_upsert_load_roundtrip (db : List ArchiveRow)
    (prior : List (String × Task)) (t : Task) (now : Int)
    (hwf : ∀ r ∈ db, wfRow r = true) (hnd : (db.map ArchiveRow.name).Nodup) :
    ∃ m, archiveLoad (archiveUpsert db t now) prior
        = some (archiveUpsert db t now, m)
      ∧ lookupA m t.id = some (downgrade t)
      ∧ (downgrade t).id = t.id
      ∧ (downgrade t).rest = t.rest
      ∧ (t.state = TaskState.active → (downgrade t).state = TaskState.paused)
      ∧ (t.state ≠ TaskState.active → downgrade t = t) := by
  have hwf' : ∀ r ∈ archiveUpsert db t now, wfRow r = true := by
    intro r hr
    rcases mem_upsertRow db _ r hr with h1 | h1
    · exact hwf r h1
    · subst h1
      simp [wfRow, serializeTask]
  have hnd' : ((archiveUpsert db t now).map ArchiveRow.name).Nodup :=
    nodup_name_upsertRow db _ hnd
  refine ⟨_, archiveLoad_wf_eq _ prior hwf' hnd', ?_, ?_, ?_, ?_, ?_⟩
  · have hmem := List.mem_map_of_mem
      (fun r => (r.name, downgrade (taskOf r.value)))
      (upsertRow_self_mem db ⟨t.id, serializeTask t, now⟩)
    have hnd2 : (((archiveUpsert db t now).map
        (fun r => (r.name, downgrade (taskOf r.value)))).map Prod.fst).Nodup := by
      rw [List.map_map]
      simpa [Function.comp] using hnd'
    have hl := lookupA_of_mem_nodup _ _ _ hmem hnd2
    have hser : taskOf (serializeTask t) = t := rfl
    simpa [hser] using hl
  · cases t with
    | mk i s rest => by_cases hs : s = TaskState.active <;> simp [downgrade, hs]
  · cases t with
    | mk i s rest => by_cases hs : s = TaskState.active <;> simp [downgrade, hs]
  · intro hact
    simp [downgrade, hact]
  · intro hnact
    simp [downgrade, hnact]

theorem archive_upsert_load_roundtrip_witness :
    ∃ m, archiveLoad (archiveUpsert [] ⟨"t9", TaskState.active, "x"⟩ 7) []
        = some (archiveUpsert [] ⟨"t9", TaskState.active, "x"⟩ 7, m)
      ∧ lookupA m "t9" = some (downgrade ⟨"t9", TaskState.active, "x"⟩) := by
  obtain ⟨m, h1, h2, _⟩ := archive_upsert_load_roundtrip [] []
    ⟨"t9", TaskState.active, "x"⟩ 7 (by decide) (by decide)
  exact ⟨m, h1, h2⟩

/-- C10: a successful `load()` replaces the in-memory map wholesale: the
result is exactly one entry per archive row (keyed by the row's task id),
it does not depend on whatever tasks were in memory before, and any id
absent from the archive rows is absent from the result. -/
theorem archive_load_replace_contract (db : List ArchiveRow)
    (prior : List (String × Task))
    (hwf : ∀ r ∈ db, wfRow r = true) (hnd : (db.map ArchiveRow.name).Nodup) :
    archiveLoad db prior
      = some (db, db.map (fun r => (r.name, downgrade (taskOf r.value))))
    ∧ archiveLoad db prior = archiveLoad db []
    ∧ (∀ k, k ∉ db.map ArchiveRow.name →
        lookupA (db.map (fun r => (r.name, downgrade (taskOf r.value)))) k
          = none) := by
  refine ⟨archiveLoad_wf_eq db prior hwf hnd, ?_, ?_⟩
  · rw [archiveLoad_wf_eq db prior hwf hnd, archiveLoad_wf_eq db [] hwf hnd]
  · intro k hk
    apply (lookupA_eq_none_iff _ _).mpr
    rw [List.map_map]
    simpa [Function.comp] using hk

theorem archive_load_replace_contract_witness :
    archiveLoad
        [⟨"a1", Persisted.task "a1" TaskState.paused "q", 3⟩]
        [("gone", ⟨"gone", TaskState.paused, "g"⟩)]
      = some ([⟨"a1", Persisted.task "a1" TaskState.paused "q", 3⟩],
          [("a1", ⟨"a1", TaskState.paused, "q"⟩)])
    ∧ lookupA
        (List.map (fun r : ArchiveRow => (r.name, downgrade (taskOf r.value)))
          [⟨"a1", Persisted.task "a1" TaskState.paused "q", 3⟩]) "gone"
      = none := by
  have h := archive_load_replace_contract
    [⟨"a1", Persisted.task "a1" TaskState.paused "q", 3⟩]
    [("gone", ⟨"gone", TaskState.paused, "g"⟩)]
    (by decide) (by decide)
  refine ⟨h.1.trans (by rfl), h.2.2 "gone" (by decide)⟩

end BiliTools
